import Mathlib

/-!
A shallow embedding of the `rex` regular-expression engine (src/main.cpp):
lexer, recursive-descent parser, AST with per-node `match`, and the anchored
`Matcher`.  Machine integers (`size_t`) are modelled as `Nat`; the one place
where unsigned wrap-around matters (`--index` in `StarNode::match` when
`index == 0`) wraps explicitly at `2^64`.  Partiality (the matcher can loop
forever, and a `nullptr` child can be dereferenced) is modelled with a fuel
parameter: `Res.out` means the fuel ran out, `Res.nullDeref` means the C++
would have called `match` through a null pointer.
-/

/-- Token kinds, from `enum class TokenType`.  The `END` token is modelled by
the end of the token list (the lexer emits exactly one token per pattern
character). -/
inductive Tok where
  | literal (c : Char)
  | dotT
  | starT
  | lparen
  | rparen
  | altT
deriving DecidableEq, Repr

/-- `Lexer::nextToken`, one character: `*` `.` `(` `)` `|` map to their
operator tokens and every other character (the `default:` case) becomes a
`LITERAL` carrying that character. -/
def charToToken (c : Char) : Tok :=
  if c = '*' then Tok.starT
  else if c = '.' then Tok.dotT
  else if c = '(' then Tok.lparen
  else if c = ')' then Tok.rparen
  else if c = '|' then Tok.altT
  else Tok.literal c

/-- The whole token stream of a pattern: the lexer consumes one character per
`nextToken` call and then returns `END` forever. -/
def tokenize (p : List Char) : List Tok := p.map charToToken

/-- The operator characters of the lexer; any other character is lexed as a
literal. -/
def isOp (c : Char) : Bool :=
  c = '*' || c = '.' || c = '(' || c = ')' || c = '|'

/-- The AST node hierarchy.  `null` stands for a `nullptr` child, which
`Parser::parsePrimary` can produce (its `default:` case leaves `node` empty).
`group` carries the mutable `captured` field of `GroupNode`. -/
inductive RTree where
  | null
  | lit (c : Char)
  | dot
  | star (child : RTree)
  | concat (l r : RTree)
  | group (captured : List Char) (child : RTree)
  | alt (l r : RTree)
deriving DecidableEq, Repr

/-- Result of a fueled computation: a value, a null-pointer dereference, or
fuel exhaustion (the C++ ran longer than the fuel allows; a computation that
is `out` at every fuel never returns). -/
inductive Res (α : Type) where
  | ok (val : α)
  | nullDeref
  | out
deriving DecidableEq, Repr

/-- `text.substr(start, index - start)`: the characters of `s` from position
`i` (inclusive) to `j` (exclusive). -/
def seg (s : List Char) (i j : Nat) : List Char := (s.drop i).take (j - i)

/-- The width of `size_t`: `--index` at `index == 0` wraps to `2 ^ 64 - 1`. -/
def wordMax : Nat := 2 ^ 64 - 1

/-- The greedy phase of `StarNode::match` (`while (node->match(text, index));`):
repeat the child matcher `m` while it succeeds.  The loop leaves `index` as the
final (failed) call left it, and the child tree's capture state threads
through.  `m` is the matcher for the current fuel level; the `Nat` bounds the
number of iterations. -/
def starGreedyF (m : RTree → List Char → Nat → Res (Bool × Nat × RTree)) :
    Nat → RTree → List Char → Nat → Res (Nat × RTree)
  | 0, _, _, _ => Res.out
  | fuel+1, t, s, i =>
    match m t s i with
    | Res.ok (true, j, t') => starGreedyF m fuel t' s j
    | Res.ok (false, j, t') => Res.ok (j, t')
    | Res.nullDeref => Res.nullDeref
    | Res.out => Res.out

/-- The backtracking phase of `StarNode::match`:
`while (index >= start) { if (index == text.length() || node->match(text, index)) return true; --index; }
return false;`
On a failed child call `index` is whatever the child left it, and `--index`
wraps at zero because `index` is a `size_t`. -/
def starBackF (m : RTree → List Char → Nat → Res (Bool × Nat × RTree)) :
    Nat → RTree → List Char → Nat → Nat → Res (Bool × Nat × RTree)
  | 0, _, _, _, _ => Res.out
  | fuel+1, t, s, start, idx =>
    if idx < start then Res.ok (false, idx, RTree.star t)
    else if idx = s.length then Res.ok (true, idx, RTree.star t)
    else
      match m t s idx with
      | Res.ok (true, j, t') => Res.ok (true, j, RTree.star t')
      | Res.ok (false, j, t') =>
          starBackF m fuel t' s start (if j = 0 then wordMax else j - 1)
      | Res.nullDeref => Res.nullDeref
      | Res.out => Res.out

/-- `ASTNode::match` for every node variant, by fuel.  `Res.ok (b, j, t')`
models the C++ call returning `b` with the cursor left at `j` and the tree's
capture fields updated to `t'`:
* `lit`/`dot` are `LiteralNode::match`/`DotNode::match`;
* `star` is `StarNode::match` (greedy phase, then backtracking phase);
* `concat` is `ConcatNode::match` (children run on a temporary cursor that is
  committed only on full success — but capture-field mutation persists);
* `group` is `GroupNode::match` (cursor passed through by reference; on child
  success `captured = text.substr(start, index - start)`);
* `alt` is `AlternationNode::match` (left on a temporary cursor; on its
  failure the right child runs on the caller's cursor by reference);
* `null` is a call through a null pointer. -/
def matchC : Nat → RTree → List Char → Nat → Res (Bool × Nat × RTree)
  | 0, _, _, _ => Res.out
  | fuel+1, t, s, i =>
    match t with
    | RTree.null => Res.nullDeref
    | RTree.lit c =>
      match s[i]? with
      | some ch =>
          if ch = c then Res.ok (true, i+1, RTree.lit c)
          else Res.ok (false, i, RTree.lit c)
      | none => Res.ok (false, i, RTree.lit c)
    | RTree.dot =>
      match s[i]? with
      | some _ => Res.ok (true, i+1, RTree.dot)
      | none => Res.ok (false, i, RTree.dot)
    | RTree.star c =>
      match starGreedyF (matchC fuel) fuel c s i with
      | Res.ok (m, t1) => starBackF (matchC fuel) fuel t1 s i m
      | Res.nullDeref => Res.nullDeref
      | Res.out => Res.out
    | RTree.concat l r =>
      match matchC fuel l s i with
      | Res.ok (true, j, l') =>
        match matchC fuel r s j with
        | Res.ok (true, k, r') => Res.ok (true, k, RTree.concat l' r')
        | Res.ok (false, _, r') => Res.ok (false, i, RTree.concat l' r')
        | Res.nullDeref => Res.nullDeref
        | Res.out => Res.out
      | Res.ok (false, _, l') => Res.ok (false, i, RTree.concat l' r)
      | Res.nullDeref => Res.nullDeref
      | Res.out => Res.out
    | RTree.group cap c =>
      match matchC fuel c s i with
      | Res.ok (true, j, t') => Res.ok (true, j, RTree.group (seg s i j) t')
      | Res.ok (false, j, t') => Res.ok (false, j, RTree.group cap t')
      | Res.nullDeref => Res.nullDeref
      | Res.out => Res.out
    | RTree.alt l r =>
      match matchC fuel l s i with
      | Res.ok (true, j, l') => Res.ok (true, j, RTree.alt l' r)
      | Res.ok (false, _, l') =>
        match matchC fuel r s i with
        | Res.ok (br, k, r') => Res.ok (br, k, RTree.alt l' r')
        | Res.nullDeref => Res.nullDeref
        | Res.out => Res.out
      | Res.nullDeref => Res.nullDeref
      | Res.out => Res.out

/-- `Matcher::match`: run the root from cursor `0` and require the root to
succeed with the cursor exactly at the text's length.  The returned tree is
the root after the call (its `Group` capture fields as the call left them). -/
def matcherMatch (fuel : Nat) (root : RTree) (s : List Char) :
    Res (Bool × RTree) :=
  match matchC fuel root s 0 with
  | Res.ok (b, i, t') => Res.ok (b && i == s.length, t')
  | Res.nullDeref => Res.nullDeref
  | Res.out => Res.out

/-- The boolean verdict of `Matcher::match`. -/
def matchBool (fuel : Nat) (root : RTree) (s : List Char) : Res Bool :=
  match matcherMatch fuel root s with
  | Res.ok (b, _) => Res.ok b
  | Res.nullDeref => Res.nullDeref
  | Res.out => Res.out

/-- The postfix-star check at the end of `Parser::parsePrimary`: if the next
token is `STAR`, wrap the node just parsed and advance past the `*`. -/
def starCheck (node : RTree) (rest : List Tok) : RTree × List Tok :=
  match rest with
  | Tok.starT :: rest2 => (RTree.star node, rest2)
  | _ => (node, rest)

/-- `Parser::parsePrimary`, given `pe` = `parseExpression` (for the
parenthesised case).  The `default:` case leaves the node null; a missing
closing parenthesis is silently accepted (the `if` around `advance()`); the
trailing `if (currentToken.type == TokenType::STAR)` is `starCheck`, applied
in every case. -/
def parsePrimaryF (pe : List Tok → RTree × List Tok) :
    List Tok → RTree × List Tok
  | Tok.literal c :: rest => starCheck (RTree.lit c) rest
  | Tok.dotT :: rest => starCheck RTree.dot rest
  | Tok.lparen :: rest =>
      match pe rest with
      | (inner, Tok.rparen :: rest3) => starCheck (RTree.group [] inner) rest3
      | (inner, rest2) => starCheck (RTree.group [] inner) rest2
  | Tok.starT :: rest => (RTree.star RTree.null, rest)
  | ts => (RTree.null, ts)

/-- The `while (true)` fold of `Parser::parseExpression`: on `|` advance and
fold one more primary with `AlternationNode`; on a literal, dot or `(` fold
one more primary with `ConcatNode`; otherwise stop.  The `Nat` bounds the
number of iterations (each iteration of the C++ loop consumes at least one
token, so any fuel past the token count is unreachable). -/
def parseLoopF (pp : List Tok → RTree × List Tok) :
    Nat → RTree → List Tok → RTree × List Tok
  | 0, left, ts => (left, ts)
  | fuel+1, left, ts =>
    match ts with
    | Tok.altT :: rest =>
        match pp rest with
        | (right, rest2) => parseLoopF pp fuel (RTree.alt left right) rest2
    | Tok.literal _ :: _ =>
        match pp ts with
        | (right, rest2) => parseLoopF pp fuel (RTree.concat left right) rest2
    | Tok.dotT :: _ =>
        match pp ts with
        | (right, rest2) => parseLoopF pp fuel (RTree.concat left right) rest2
    | Tok.lparen :: _ =>
        match pp ts with
        | (right, rest2) => parseLoopF pp fuel (RTree.concat left right) rest2
    | _ => (left, ts)

/-- `Parser::parseExpression`: one primary, then the fold.  The fuel bounds
the parenthesis-nesting depth and the fold length; both are bounded by the
token count, so the wrapper `parse` below always supplies enough. -/
def parseExprF : Nat → List Tok → RTree × List Tok
  | 0, ts => (RTree.null, ts)
  | fuel+1, ts =>
    match parsePrimaryF (parseExprF fuel) ts with
    | (left, rest) => parseLoopF (parsePrimaryF (parseExprF fuel)) fuel left rest

/-- `compile`: lex the pattern and parse it into the AST root (the C++
`Parser(lexer).parseExpression()`; there is no error path, every pattern
string yields a tree). -/
def parse (p : List Char) : RTree :=
  (parseExprF (p.length + 4) (tokenize p)).1

/-- Modelled from the spec: the language a pattern denotes, from the spec's
words for each construct — literal = exact char, dot = any one char, `*` =
zero or more repetitions of the child, concatenation = sequential
composition, `|` = alternation (the spec qualifies it left-biased; this
denotation keeps both alternatives), parentheses = grouping.  Used only to
compare the code's matcher against the denotation; `null` denotes nothing. -/
inductive Lang : RTree → List Char → Prop where
  | lit (c : Char) : Lang (RTree.lit c) [c]
  | dot (c : Char) : Lang RTree.dot [c]
  | concat {l r s t} : Lang l s → Lang r t → Lang (RTree.concat l r) (s ++ t)
  | group {t s cap} : Lang t s → Lang (RTree.group cap t) s
  | altL {l r s} : Lang l s → Lang (RTree.alt l r) s
  | altR {l r s} : Lang r s → Lang (RTree.alt l r) s
  | starNil {t} : Lang (RTree.star t) []
  | starCons {t s u} : Lang t s → Lang (RTree.star t) u → Lang (RTree.star t) (s ++ u)

/-- Trees with no `star` and no `alt` node (the fragment on which the matcher
agrees with the denotation). -/
def starAltFree : RTree → Bool
  | RTree.null => true
  | RTree.lit _ => true
  | RTree.dot => true
  | RTree.star _ => false
  | RTree.concat l r => starAltFree l && starAltFree r
  | RTree.group _ t => starAltFree t
  | RTree.alt _ _ => false

/-- Height of a tree: enough fuel for the matcher on star-free trees. -/
def ht : RTree → Nat
  | RTree.null => 0
  | RTree.lit _ => 0
  | RTree.dot => 0
  | RTree.star t => ht t + 1
  | RTree.concat l r => max (ht l) (ht r) + 1
  | RTree.group _ t => ht t + 1
  | RTree.alt l r => max (ht l) (ht r) + 1

/-- A null pointer sits on the spine the matcher evaluates first: the tree
itself, a star's child, a concatenation's or alternation's left child, or a
group's child. -/
inductive NullSpine : RTree → Prop where
  | null : NullSpine RTree.null
  | star {t} : NullSpine t → NullSpine (RTree.star t)
  | concat {l r} : NullSpine l → NullSpine (RTree.concat l r)
  | group {cap t} : NullSpine t → NullSpine (RTree.group cap t)
  | alt {l r} : NullSpine l → NullSpine (RTree.alt l r)

/-- `Matcher::match` on this tree and text never returns: no amount of fuel
reaches a verdict (the C++ loops forever). -/
def divergesOn (t : RTree) (s : List Char) : Prop :=
  ∀ fuel, matcherMatch fuel t s = Res.out

/-! ## Basic facts about the matcher -/

theorem matchC_zero (t : RTree) (s : List Char) (i : Nat) :
    matchC 0 t s i = Res.out := rfl

/-- Splitting a segment of the text at an intermediate cursor position. -/
theorem seg_append (s : List Char) {i j k : Nat} (hij : i ≤ j) (hjk : j ≤ k) :
    seg s i k = seg s i j ++ seg s j k := by
  unfold seg
  have hk : k - i = (j - i) + (k - j) := by omega
  have hj : i + (j - i) = j := by omega
  rw [hk, List.take_add, List.drop_drop, hj]

theorem seg_all (s : List Char) : seg s 0 s.length = s := by
  simp [seg]

/-- C7: the verdict of `Matcher::match` is true exactly when the root's match
succeeds with the cursor advanced to the end of the text, so matching is
anchored at both ends; in particular the pattern `a` does not match the text
"ab" (the trailing character stays unconsumed). -/
theorem matcher_anchored_both_ends :
    (∀ fuel root s, matchBool fuel root s = Res.ok true ↔
      ∃ t', matchC fuel root s 0 = Res.ok (true, s.length, t')) ∧
    matchBool 8 (RTree.lit 'a') ['a', 'b'] = Res.ok false := by
  refine ⟨?_, by decide⟩
  intro fuel root s
  unfold matchBool matcherMatch
  cases h : matchC fuel root s 0 with
  | ok v =>
    obtain ⟨b, i, t'⟩ := v
    simp only [Res.ok.injEq, Bool.and_eq_true, beq_iff_eq, Prod.mk.injEq]
    constructor
    · rintro ⟨hb, hi⟩
      exact ⟨t', by simp [hb, hi]⟩
    · rintro ⟨t'', h1, h2, h3⟩
      exact ⟨h1, h2⟩
  | nullDeref => simp
  | out => simp

/-- C2 (code bug): for the AST `Concat(Star(Literal a), Literal a)` on the
text "aaaa" the star greedily consumes all four characters and, because the
cursor sits at the end of the text, `StarNode::match` returns true at once —
the concatenation never re-enters the star, the trailing literal fails at the
end of text, and the overall match is FALSE, although the comment in
`StarNode::match` ("try to match the rest of the pattern by backtracking")
and the spec both promise true. -/
theorem star_no_concat_backtrack_aaaa :
    matchC 64 (RTree.star (RTree.lit 'a')) ['a', 'a', 'a', 'a'] 0 =
      Res.ok (true, 4, RTree.star (RTree.lit 'a')) ∧
    matchBool 64 (RTree.concat (RTree.star (RTree.lit 'a')) (RTree.lit 'a'))
      ['a', 'a', 'a', 'a'] = Res.ok false := by decide

/-- C4 counterexample: compiling `a|ab` and matching "ab" returns TRUE, not
false as the claim states (the parser reads `a|ab` as `Concat(Alt(a,a),b)`). -/
theorem a_alt_ab_on_ab_is_true :
    matchBool 64 (parse ['a', '|', 'a', 'b']) ['a', 'b'] = Res.ok true := by decide

/-- C4 (amended): compiling `a|ab` yields `Concat(Alternation(a,a), b)` — the
`b` is concatenated after the alternation — and that tree matches "ab", so
`match` returns true; the claimed behaviour (false by left bias without
retry) does hold, but only for the directly built tree
`Alternation(a, Concat(a,b))`, which is not what the parser produces. -/
theorem a_alt_ab_matches_ab :
    parse ['a', '|', 'a', 'b'] =
      RTree.concat (RTree.alt (RTree.lit 'a') (RTree.lit 'a')) (RTree.lit 'b') ∧
    matchBool 64 (parse ['a', '|', 'a', 'b']) ['a', 'b'] = Res.ok true ∧
    matchBool 64 (RTree.alt (RTree.lit 'a') (RTree.concat (RTree.lit 'a') (RTree.lit 'b')))
      ['a', 'b'] = Res.ok false := by decide

/-- C3 counterexample: `ab|cd` does NOT parse to
`Alternation(Concat(a,b), Concat(c,d))`; the parser produces
`Concat(Alternation(Concat(a,b), c), d)`. -/
theorem parse_ab_alt_cd_not_lowest_precedence :
    parse ['a', 'b', '|', 'c', 'd'] =
      RTree.concat
        (RTree.alt (RTree.concat (RTree.lit 'a') (RTree.lit 'b')) (RTree.lit 'c'))
        (RTree.lit 'd') ∧
    parse ['a', 'b', '|', 'c', 'd'] ≠
      RTree.alt (RTree.concat (RTree.lit 'a') (RTree.lit 'b'))
        (RTree.concat (RTree.lit 'c') (RTree.lit 'd')) := by decide

/-- The lexer maps every non-operator character to a literal token. -/
theorem charToToken_literal (c : Char) (h : isOp c = false) :
    charToToken c = Tok.literal c := by
  unfold isOp at h
  simp only [Bool.or_eq_false_iff, decide_eq_false_iff_not] at h
  obtain ⟨⟨⟨⟨h1, h2⟩, h3⟩, h4⟩, h5⟩ := h
  unfold charToToken
  rw [if_neg h1, if_neg h2, if_neg h3, if_neg h4, if_neg h5]

/-- C3 (amended): `|` is parsed at the same precedence level as
concatenation, taking a single following factor as its right operand: for
literal characters a b c d, the pattern `ab|cd` parses to
`Concat(Alternation(Concat(a,b), c), d)`. -/
theorem alternation_single_factor_shape (a b c d : Char)
    (ha : isOp a = false) (hb : isOp b = false)
    (hc : isOp c = false) (hd : isOp d = false) :
    parse [a, b, '|', c, d] =
      RTree.concat
        (RTree.alt (RTree.concat (RTree.lit a) (RTree.lit b)) (RTree.lit c))
        (RTree.lit d) := by
  have ha' := charToToken_literal a ha
  have hb' := charToToken_literal b hb
  have hc' := charToToken_literal c hc
  have hd' := charToToken_literal d hd
  have hbar : charToToken '|' = Tok.altT := by decide
  unfold parse tokenize
  simp only [List.map_cons, List.map_nil, ha', hb', hc', hd', hbar]
  rfl

/-- C3 witness: the amended parse shape at the concrete pattern `ab|cd`. -/
theorem alternation_single_factor_shape_witness :
    parse ['a', 'b', '|', 'c', 'd'] =
      RTree.concat
        (RTree.alt (RTree.concat (RTree.lit 'a') (RTree.lit 'b')) (RTree.lit 'c'))
        (RTree.lit 'd') :=
  alternation_single_factor_shape 'a' 'b' 'c' 'd'
    (by decide) (by decide) (by decide) (by decide)

/-- C8 counterexample: the lexer's `default:` case turns `+` into a LITERAL
token — `a+b` compiles without any error into
`Concat(Concat(a, +), b)`, and the compiled pattern matches the text "a+b". -/
theorem plus_pattern_compiles :
    charToToken '+' = Tok.literal '+' ∧
    parse ['a', '+', 'b'] =
      RTree.concat (RTree.concat (RTree.lit 'a') (RTree.lit '+')) (RTree.lit 'b') ∧
    matchBool 64 (parse ['a', '+', 'b']) ['a', '+', 'b'] = Res.ok true := by decide

/-- C8 (amended): the engine has no `PatternSyntaxError` at all — every
character that is not one of the five operators, alphabetic or not, is lexed
as a literal of itself, and such patterns compile and match normally. -/
theorem lexer_accepts_any_literal :
    (∀ c, isOp c = false → charToToken c = Tok.literal c) ∧
    parse ['x', '@', 'y'] =
      RTree.concat (RTree.concat (RTree.lit 'x') (RTree.lit '@')) (RTree.lit 'y') ∧
    matchBool 64 (parse ['x', '@', 'y']) ['x', '@', 'y'] = Res.ok true := by
  exact ⟨charToToken_literal, by decide, by decide⟩

/-- C9 counterexample: matching the compiled `(a)b` against "ac" fails
overall, yet the group's `captured` field has been overwritten by the failed
attempt — it went from the initial empty capture to "a". -/
theorem failed_match_retains_capture :
    parse ['(', 'a', ')', 'b'] =
      RTree.concat (RTree.group [] (RTree.lit 'a')) (RTree.lit 'b') ∧
    matcherMatch 64 (parse ['(', 'a', ')', 'b']) ['a', 'c'] =
      Res.ok (false, RTree.concat (RTree.group ['a'] (RTree.lit 'a')) (RTree.lit 'b')) := by
  decide

/-- C9 (amended): `GroupNode::match` overwrites its `captured` field on every
successful child match — also in the middle of an overall match that then
fails — and keeps the old capture only when the child itself fails; so after
a failed `Matcher::match` a Group node can expose a capture written by that
failed attempt (compiled `(ab)c` against "abd" fails yet leaves capture "ab"). -/
theorem group_capture_update_semantics :
    (∀ fuel cap child s i j t2,
      matchC fuel (RTree.group cap child) s i = Res.ok (true, j, t2) →
      ∃ child', t2 = RTree.group (seg s i j) child') ∧
    (∀ fuel cap child s i j t2,
      matchC fuel (RTree.group cap child) s i = Res.ok (false, j, t2) →
      ∃ child', t2 = RTree.group cap child') ∧
    matcherMatch 64 (parse ['(', 'a', 'b', ')', 'c']) ['a', 'b', 'd'] =
      Res.ok (false,
        RTree.concat (RTree.group ['a', 'b'] (RTree.concat (RTree.lit 'a') (RTree.lit 'b')))
          (RTree.lit 'c')) := by
  refine ⟨?_, ?_, by decide⟩
  · intro fuel cap child s i j t2 h
    cases fuel with
    | zero => simp [matchC] at h
    | succ f =>
      simp only [matchC] at h
      cases hm : matchC f child s i with
      | ok v =>
        obtain ⟨b, j0, c'⟩ := v
        rw [hm] at h
        cases b with
        | true =>
          simp only [Res.ok.injEq, Prod.mk.injEq] at h
          exact ⟨c', by rw [← h.2.2, ← h.2.1]⟩
        | false => simp at h
      | nullDeref => rw [hm] at h; simp at h
      | out => rw [hm] at h; simp at h
  · intro fuel cap child s i j t2 h
    cases fuel with
    | zero => simp [matchC] at h
    | succ f =>
      simp only [matchC] at h
      cases hm : matchC f child s i with
      | ok v =>
        obtain ⟨b, j0, c'⟩ := v
        rw [hm] at h
        cases b with
        | true => simp at h
        | false =>
          simp only [Res.ok.injEq, Prod.mk.injEq] at h
          exact ⟨c', h.2.2.symm⟩
      | nullDeref => rw [hm] at h; simp at h
      | out => rw [hm] at h; simp at h

/-- If every true result of the child matcher `m` leaves the cursor within
the text, so does every true result of the star's backtracking loop. -/
theorem starBackF_true_le
    {m : RTree → List Char → Nat → Res (Bool × Nat × RTree)}
    (hm : ∀ t s i j t', m t s i = Res.ok (true, j, t') → j ≤ s.length) :
    ∀ g t s st idx j t',
      starBackF m g t s st idx = Res.ok (true, j, t') → j ≤ s.length := by
  intro g
  induction g with
  | zero => intro t s st idx j t' h; simp [starBackF] at h
  | succ g ih =>
    intro t s st idx j t' h
    simp only [starBackF] at h
    by_cases h1 : idx < st
    · rw [if_pos h1] at h; simp at h
    · rw [if_neg h1] at h
      by_cases h2 : idx = s.length
      · rw [if_pos h2] at h
        simp only [Res.ok.injEq, Prod.mk.injEq] at h
        omega
      · rw [if_neg h2] at h
        cases hm' : m t s idx with
        | ok v =>
          obtain ⟨b, j0, t0⟩ := v
          rw [hm'] at h
          cases b with
          | true =>
            simp only [Res.ok.injEq, Prod.mk.injEq] at h
            have := hm t s idx j0 t0 hm'
            omega
          | false => exact ih _ _ _ _ _ _ h
        | nullDeref => rw [hm'] at h; simp at h
        | out => rw [hm'] at h; simp at h

/-- Every successful `match` leaves the cursor at a valid position, at most
the text's length (for every node variant, any fuel, any start cursor). -/
theorem matchC_true_le :
    ∀ fuel t s i j t', matchC fuel t s i = Res.ok (true, j, t') → j ≤ s.length := by
  intro fuel
  induction fuel with
  | zero => intro t s i j t' h; simp [matchC] at h
  | succ f ih =>
    intro t s i j t' h
    cases t with
    | null => simp [matchC] at h
    | lit c =>
      simp only [matchC] at h
      split at h
      · rename_i ch heq
        split at h
        · simp only [Res.ok.injEq, Prod.mk.injEq] at h
          have : i < s.length := (List.getElem?_eq_some.mp heq).1
          omega
        · simp at h
      · simp at h
    | dot =>
      simp only [matchC] at h
      split at h
      · rename_i ch heq
        simp only [Res.ok.injEq, Prod.mk.injEq] at h
        have : i < s.length := (List.getElem?_eq_some.mp heq).1
        omega
      · simp at h
    | star c =>
      simp only [matchC] at h
      split at h
      · rename_i mpos t1 hgr
        exact starBackF_true_le ih f t1 s i mpos j t' h
      · simp at h
      · simp at h
    | concat l r =>
      simp only [matchC] at h
      split at h
      · rename_i j1 l' hl
        split at h
        · rename_i k r' hr
          simp only [Res.ok.injEq, Prod.mk.injEq] at h
          have := ih r s j1 k r' hr
          omega
        · simp at h
        · simp at h
        · simp at h
      · simp at h
      · simp at h
      · simp at h
    | group cap c =>
      simp only [matchC] at h
      split at h
      · rename_i j0 c' hc
        simp only [Res.ok.injEq, Prod.mk.injEq] at h
        have := ih c s i j0 c' hc
        omega
      · simp at h
      · simp at h
      · simp at h
    | alt l r =>
      simp only [matchC] at h
      split at h
      · rename_i j1 l' hl
        simp only [Res.ok.injEq, Prod.mk.injEq] at h
        have := ih l s i j1 l' hl
        omega
      · rename_i b1 l' hl
        split at h
        · rename_i br k r' hr
          simp only [Res.ok.injEq, Prod.mk.injEq] at h
          obtain ⟨hb, hk, -⟩ := h
          subst hb
          have := ih r s i k r' hr
          omega
        · simp at h
        · simp at h
      · simp at h
      · simp at h

/-- C5 counterexample: a `StarNode` that fails does NOT restore the cursor:
`Star(Literal a)` matched against "ab" from starting cursor 1 returns false
with the cursor left at 0 — one position BEFORE its pre-call value 1 (the
final `--index` of the backtracking loop leaks out). -/
theorem star_failure_moves_cursor_back :
    matchC 8 (RTree.star (RTree.lit 'a')) ['a', 'b'] 1 =
      Res.ok (false, 0, RTree.star (RTree.lit 'a')) ∧ (0 : Nat) ≠ 1 := by decide

/-- C5 (amended): on success every node variant leaves the cursor at a valid
position at most the text's length; on failure `Literal`, `Dot` and `Concat`
restore the cursor to its pre-call value, but `Star` can leave the cursor
one position below its pre-call value (and `Group`/`Alternation` pass such a
damaged cursor through), so the restore-on-failure half of the claim holds
only for the star-free spine. -/
theorem cursor_discipline :
    (∀ fuel t s i j t', matchC fuel t s i = Res.ok (true, j, t') → j ≤ s.length) ∧
    (∀ fuel c s i j t', matchC fuel (RTree.lit c) s i = Res.ok (false, j, t') → j = i) ∧
    (∀ fuel s i j t', matchC fuel RTree.dot s i = Res.ok (false, j, t') → j = i) ∧
    (∀ fuel l r s i j t',
      matchC fuel (RTree.concat l r) s i = Res.ok (false, j, t') → j = i) := by
  refine ⟨matchC_true_le, ?_, ?_, ?_⟩
  · intro fuel c s i j t' h
    cases fuel with
    | zero => simp [matchC] at h
    | succ f =>
      simp only [matchC] at h
      split at h
      · split at h
        · simp at h
        · simp only [Res.ok.injEq, Prod.mk.injEq] at h
          obtain ⟨-, h2, -⟩ := h
          exact h2.symm
      · simp only [Res.ok.injEq, Prod.mk.injEq] at h
        obtain ⟨-, h2, -⟩ := h
        exact h2.symm
  · intro fuel s i j t' h
    cases fuel with
    | zero => simp [matchC] at h
    | succ f =>
      simp only [matchC] at h
      split at h
      · simp at h
      · simp only [Res.ok.injEq, Prod.mk.injEq] at h
        obtain ⟨-, h2, -⟩ := h
        exact h2.symm
  · intro fuel l r s i j t' h
    cases fuel with
    | zero => simp [matchC] at h
    | succ f =>
      simp only [matchC] at h
      split at h
      · split at h
        · simp at h
        · simp only [Res.ok.injEq, Prod.mk.injEq] at h
          obtain ⟨-, h2, -⟩ := h
          exact h2.symm
        · simp at h
        · simp at h
      · simp only [Res.ok.injEq, Prod.mk.injEq] at h
        obtain ⟨-, h2, -⟩ := h
        exact h2.symm
      · simp at h
      · simp at h

/-- The group `(a*)` matches the empty text at cursor 0 without consuming
anything, for any fuel of at least 3. -/
theorem group_star_empty_val (n : Nat) :
    matchC (n + 3) (RTree.group [] (RTree.star (RTree.lit 'a'))) [] 0 =
      Res.ok (true, 0, RTree.group [] (RTree.star (RTree.lit 'a'))) := rfl

/-- At every fuel, matching `(a*)` on the empty text either runs out of fuel
or succeeds at cursor 0 without consuming and without changing the tree. -/
theorem group_star_empty_cases (f : Nat) :
    matchC f (RTree.group [] (RTree.star (RTree.lit 'a'))) [] 0 = Res.out ∨
    matchC f (RTree.group [] (RTree.star (RTree.lit 'a'))) [] 0 =
      Res.ok (true, 0, RTree.group [] (RTree.star (RTree.lit 'a'))) := by
  match f with
  | 0 => exact Or.inl rfl
  | 1 => exact Or.inl rfl
  | 2 => exact Or.inl rfl
  | n + 3 => exact Or.inr (group_star_empty_val n)

/-- The greedy loop of the outer star of `(a*)*` on the empty text never
stops: its child succeeds without consuming, so every iteration starts over
at cursor 0 and the loop only ever runs out of fuel. -/
theorem starGreedy_nullable_out (f g : Nat) :
    starGreedyF (matchC f) g (RTree.group [] (RTree.star (RTree.lit 'a'))) [] 0 =
      Res.out := by
  induction g with
  | zero => rfl
  | succ g ih =>
    simp only [starGreedyF]
    rcases group_star_empty_cases f with h | h
    · rw [h]
    · rw [h]
      exact ih

/-- C6 (code bug): `Matcher::match` does NOT always run to completion.  The
pattern `(a*)*` compiles to `Star(Group(Star(Literal a)))`; on the empty
text the outer star's greedy loop `while (node->match(text, index));` spins
forever, because the child group succeeds without consuming any characters.
No fuel reaches a verdict — the C++ loops forever. -/
theorem nullable_star_diverges :
    divergesOn (parse ['(', 'a', '*', ')', '*']) [] := by
  intro fuel
  have hp : parse ['(', 'a', '*', ')', '*'] =
      RTree.star (RTree.group [] (RTree.star (RTree.lit 'a'))) := by decide
  rw [hp]
  have hm : matchC fuel
      (RTree.star (RTree.group [] (RTree.star (RTree.lit 'a')))) [] 0 = Res.out := by
    cases fuel with
    | zero => rfl
    | succ f =>
      simp only [matchC]
      rw [starGreedy_nullable_out f f]
  unfold matcherMatch
  rw [hm]

/-- A tree with a null pointer on its first-evaluated spine crashes: the
matcher dereferences the null child before consulting the text, whatever the
text and cursor. -/
theorem nullSpine_crash {t : RTree} (h : NullSpine t) :
    ∀ s i, ∃ f, matchC f t s i = Res.nullDeref := by
  induction h with
  | null => intro s i; exact ⟨1, rfl⟩
  | star h ih =>
    rename_i t
    intro s i
    obtain ⟨f, hf⟩ := ih s i
    rcases f with - | f'
    · simp [matchC] at hf
    · refine ⟨f' + 2, ?_⟩
      have hg : starGreedyF (matchC (f' + 1)) (f' + 1) t s i = Res.nullDeref := by
        simp only [starGreedyF]
        rw [hf]
      show (match starGreedyF (matchC (f' + 1)) (f' + 1) t s i with
        | Res.ok (m, t1) => starBackF (matchC (f' + 1)) (f' + 1) t1 s i m
        | Res.nullDeref => Res.nullDeref
        | Res.out => Res.out) = Res.nullDeref
      rw [hg]
  | concat h ih =>
    intro s i
    obtain ⟨f, hf⟩ := ih s i
    refine ⟨f + 1, ?_⟩
    simp only [matchC]
    rw [hf]
  | group h ih =>
    intro s i
    obtain ⟨f, hf⟩ := ih s i
    refine ⟨f + 1, ?_⟩
    simp only [matchC]
    rw [hf]
  | alt h ih =>
    intro s i
    obtain ⟨f, hf⟩ := ih s i
    refine ⟨f + 1, ?_⟩
    simp only [matchC]
    rw [hf]

/-- The parse-expression fold preserves a null spine of its accumulator: the
running left tree only ever becomes the left child of a new `Concat` or
`Alternation` node. -/
theorem parseLoopF_spine (pp : List Tok → RTree × List Tok) :
    ∀ g left ts, NullSpine left → NullSpine (parseLoopF pp g left ts).1 := by
  intro g
  induction g with
  | zero => intro left ts h; exact h
  | succ g ih =>
    intro left ts h
    cases ts with
    | nil => exact h
    | cons tok rest =>
      cases tok with
      | literal c =>
        simp only [parseLoopF]
        rcases hpp : pp (Tok.literal c :: rest) with ⟨right, rest2⟩
        exact ih _ _ (NullSpine.concat h)
      | dotT =>
        simp only [parseLoopF]
        rcases hpp : pp (Tok.dotT :: rest) with ⟨right, rest2⟩
        exact ih _ _ (NullSpine.concat h)
      | lparen =>
        simp only [parseLoopF]
        rcases hpp : pp (Tok.lparen :: rest) with ⟨right, rest2⟩
        exact ih _ _ (NullSpine.concat h)
      | altT =>
        simp only [parseLoopF]
        rcases hpp : pp rest with ⟨right, rest2⟩
        exact ih _ _ (NullSpine.alt h)
      | starT => exact h
      | rparen => exact h

/-- One unfolding of `parseExpression`: if the first primary comes back with
a null spine, the whole expression does. -/
theorem parseExprF_spine (f : Nat) (ts : List Tok)
    (h : NullSpine (parsePrimaryF (parseExprF f) ts).1) :
    NullSpine (parseExprF (f + 1) ts).1 := by
  simp only [parseExprF]
  rcases hpp : parsePrimaryF (parseExprF f) ts with ⟨left, rest⟩
  rw [hpp] at h
  exact parseLoopF_spine _ f left rest h

/-- C10: on the empty pattern, and on every pattern whose first character is
`*`, `)` or `|`, the parser reports no error (it cannot — it has no error
path) but returns a tree whose root, or whose star's child, is a null node;
`Matcher::match` on that tree dereferences the null pointer before producing
any verdict. -/
theorem malformed_pattern_null_deref :
    parse [] = RTree.null ∧
    (∀ s, ∃ fuel, matcherMatch fuel (parse []) s = Res.nullDeref) ∧
    (∀ c rest s, c = '*' ∨ c = ')' ∨ c = '|' →
      ∃ fuel, matcherMatch fuel (parse (c :: rest)) s = Res.nullDeref) := by
  refine ⟨rfl, fun s => ⟨1, rfl⟩, ?_⟩
  intro c rest s hc
  have hspine : NullSpine (parse (c :: rest)) := by
    rcases hc with hc | hc | hc <;> subst hc <;>
      exact parseExprF_spine _ _ (by first
        | exact NullSpine.star NullSpine.null
        | exact NullSpine.null)
  obtain ⟨f, hf⟩ := nullSpine_crash hspine s 0
  refine ⟨f, ?_⟩
  unfold matcherMatch
  rw [hf]

/-- Soundness on the star- and alternation-free fragment: when the matcher
succeeds, the consumed segment of the text belongs to the node's denoted
language. -/
theorem matchC_sound :
    ∀ fuel t s i j t', starAltFree t = true →
      matchC fuel t s i = Res.ok (true, j, t') → i ≤ j ∧ Lang t (seg s i j) := by
  intro fuel
  induction fuel with
  | zero => intro t s i j t' _ h; simp [matchC] at h
  | succ f ih =>
    intro t s i j t' hfree h
    cases t with
    | null => simp [matchC] at h
    | star c => simp [starAltFree] at hfree
    | alt l r => simp [starAltFree] at hfree
    | lit c =>
      simp only [matchC] at h
      split at h
      · rename_i ch heq
        split at h
        · rename_i hcc
          simp only [Res.ok.injEq, Prod.mk.injEq] at h
          obtain ⟨-, hj, -⟩ := h
          obtain ⟨hlt, hel⟩ := List.getElem?_eq_some.mp heq
          subst hj
          refine ⟨by omega, ?_⟩
          have hdrop := List.drop_eq_getElem_cons hlt
          unfold seg
          rw [hdrop]
          have h1 : i + 1 - i = 1 := by omega
          rw [h1, hel, hcc]
          exact Lang.lit c
        · simp at h
      · simp at h
    | dot =>
      simp only [matchC] at h
      split at h
      · rename_i ch heq
        simp only [Res.ok.injEq, Prod.mk.injEq] at h
        obtain ⟨-, hj, -⟩ := h
        obtain ⟨hlt, hel⟩ := List.getElem?_eq_some.mp heq
        subst hj
        refine ⟨by omega, ?_⟩
        have hdrop := List.drop_eq_getElem_cons hlt
        unfold seg
        rw [hdrop]
        have h1 : i + 1 - i = 1 := by omega
        rw [h1]
        exact Lang.dot _
      · simp at h
    | concat l r =>
      simp only [starAltFree, Bool.and_eq_true] at hfree
      obtain ⟨hfl, hfr⟩ := hfree
      simp only [matchC] at h
      split at h
      · rename_i j1 l' hl
        split at h
        · rename_i k r' hr
          simp only [Res.ok.injEq, Prod.mk.injEq] at h
          obtain ⟨-, hj, -⟩ := h
          subst hj
          obtain ⟨hij1, hL1⟩ := ih l s i j1 l' hfl hl
          obtain ⟨hj1k, hL2⟩ := ih r s j1 k r' hfr hr
          refine ⟨by omega, ?_⟩
          rw [seg_append s hij1 hj1k]
          exact Lang.concat hL1 hL2
        · simp at h
        · simp at h
        · simp at h
      · simp at h
      · simp at h
      · simp at h
    | group cap c =>
      simp only [starAltFree] at hfree
      simp only [matchC] at h
      split at h
      · rename_i j0 c' hc
        simp only [Res.ok.injEq, Prod.mk.injEq] at h
        obtain ⟨-, hj, -⟩ := h
        subst hj
        obtain ⟨hij, hL⟩ := ih c s i j0 c' hfree hc
        exact ⟨hij, Lang.group hL⟩
      · simp at h
      · simp at h
      · simp at h

/-- Completeness on the star- and alternation-free fragment: a word of the
denoted language lying at the cursor is found by the matcher, which advances
the cursor past exactly that word. -/
theorem matchC_complete :
    ∀ {t w}, Lang t w → starAltFree t = true →
    ∀ fuel s i, ht t < fuel → w <+: s.drop i →
    ∃ t', matchC fuel t s i = Res.ok (true, i + w.length, t') := by
  intro t w hw
  induction hw with
  | lit c =>
    intro hfree fuel s i hfuel hpre
    rcases fuel with - | f
    · simp [ht] at hfuel
    · obtain ⟨r0, hr0⟩ := hpre
      have hgi : s[i]? = some c := by
        have h0 : (List.drop i s)[0]? = s[i + 0]? := List.getElem?_drop s i 0
        rw [← hr0] at h0
        simpa using h0.symm
      exact ⟨RTree.lit c, by simp [matchC, hgi]⟩
  | dot c =>
    intro hfree fuel s i hfuel hpre
    rcases fuel with - | f
    · simp [ht] at hfuel
    · obtain ⟨r0, hr0⟩ := hpre
      have hgi : s[i]? = some c := by
        have h0 : (List.drop i s)[0]? = s[i + 0]? := List.getElem?_drop s i 0
        rw [← hr0] at h0
        simpa using h0.symm
      exact ⟨RTree.dot, by simp [matchC, hgi]⟩
  | concat hl hr ihl ihr =>
    rename_i l r w1 w2
    intro hfree fuel s i hfuel hpre
    simp only [starAltFree, Bool.and_eq_true] at hfree
    obtain ⟨hfl, hfr⟩ := hfree
    rcases fuel with - | f
    · simp [ht] at hfuel
    · have hlf : ht l < f := by
        have h1 := Nat.le_max_left (ht l) (ht r)
        simp only [ht] at hfuel
        omega
      have hrf : ht r < f := by
        have h1 := Nat.le_max_right (ht l) (ht r)
        simp only [ht] at hfuel
        omega
      obtain ⟨r0, hr0⟩ := hpre
      have pre1 : w1 <+: List.drop i s := ⟨w2 ++ r0, by rw [← hr0, List.append_assoc]⟩
      obtain ⟨l', hL⟩ := ihl hfl f s i hlf pre1
      have hd : List.drop (i + w1.length) s = w2 ++ r0 := by
        rw [← List.drop_drop, ← hr0, List.append_assoc, List.drop_left]
      have pre2 : w2 <+: List.drop (i + w1.length) s := ⟨r0, hd.symm⟩
      obtain ⟨r', hR⟩ := ihr hfr f s (i + w1.length) hrf pre2
      refine ⟨RTree.concat l' r', ?_⟩
      simp only [matchC]
      rw [hL]
      simp only []
      rw [hR]
      simp [List.length_append, Nat.add_assoc]
  | group hc ihc =>
    rename_i c w0 cap
    intro hfree fuel s i hfuel hpre
    simp only [starAltFree] at hfree
    rcases fuel with - | f
    · simp [ht] at hfuel
    · have hcf : ht c < f := by
        simp only [ht] at hfuel
        omega
      obtain ⟨c', hC⟩ := ihc hfree f s i hcf hpre
      refine ⟨RTree.group (seg s i (i + w0.length)) c', ?_⟩
      simp only [matchC]
      rw [hC]
  | altL hl ihl =>
    intro hfree
    simp [starAltFree] at hfree
  | altR hr ihr =>
    intro hfree
    simp [starAltFree] at hfree
  | starNil =>
    intro hfree
    simp [starAltFree] at hfree
  | starCons hs hu ihs ihu =>
    intro hfree
    simp [starAltFree] at hfree

/-- C1 (amended): the general claim fails (see the counterexample: a star
followed by more pattern), but on the star-free and alternation-free
fragment — literals, dot, concatenation and grouping — `Matcher::match`
returns true exactly when the text lies in the language the pattern denotes. -/
theorem matchBool_lang_iff_starAltFree (t : RTree) (s : List Char) (fuel : Nat)
    (hfree : starAltFree t = true) (hfuel : ht t < fuel) :
    matchBool fuel t s = Res.ok true ↔ Lang t s := by
  constructor
  · intro h
    unfold matchBool matcherMatch at h
    cases hm : matchC fuel t s 0 with
    | ok v =>
      obtain ⟨b, i, t'⟩ := v
      rw [hm] at h
      simp only [Res.ok.injEq, Bool.and_eq_true, beq_iff_eq] at h
      obtain ⟨hb, hi⟩ := h
      subst hb
      subst hi
      obtain ⟨-, hL⟩ := matchC_sound fuel t s 0 s.length t' hfree hm
      rwa [seg_all] at hL
    | nullDeref => rw [hm] at h; simp at h
    | out => rw [hm] at h; simp at h
  · intro hL
    obtain ⟨t', hm⟩ := matchC_complete hL hfree fuel s 0 hfuel (by simp)
    rw [Nat.zero_add] at hm
    unfold matchBool matcherMatch
    rw [hm]
    simp

/-- C1 witness: the amended equivalence applied to the pattern `a.` and the
text "ax". -/
theorem matchBool_lang_iff_witness :
    matchBool 5 (RTree.concat (RTree.lit 'a') RTree.dot) ['a', 'x'] = Res.ok true :=
  (matchBool_lang_iff_starAltFree (RTree.concat (RTree.lit 'a') RTree.dot)
    ['a', 'x'] 5 (by decide) (by decide)).mpr
    (Lang.concat (Lang.lit 'a') (Lang.dot 'x'))

/-- C1 counterexample: "aaaa" lies in the language of `a*a` (three
repetitions of `a`, then the final `a`), yet the matcher answers false on
exactly that pattern and text — `match` is not equivalent to membership in
the denoted language. -/
theorem star_concat_breaks_language_iff :
    Lang (RTree.concat (RTree.star (RTree.lit 'a')) (RTree.lit 'a')) ['a', 'a', 'a', 'a'] ∧
    matchBool 64 (RTree.concat (RTree.star (RTree.lit 'a')) (RTree.lit 'a'))
      ['a', 'a', 'a', 'a'] = Res.ok false := by
  constructor
  · have h3 : Lang (RTree.star (RTree.lit 'a')) (['a'] ++ (['a'] ++ (['a'] ++ []))) :=
      Lang.starCons (Lang.lit 'a') (Lang.starCons (Lang.lit 'a')
        (Lang.starCons (Lang.lit 'a') Lang.starNil))
    exact Lang.concat h3 (Lang.lit 'a')
  · decide
